import Mathlib

/-!
ToDoList.cpp: a to-do list manager with snapshot undo/redo

A shallow embedding of `src/ToDoList.cpp`.

* `Task` objects live on the free store (`new Task(description)` in
  `TaskBuilder`); the manager's `vector<Task*>` and the two
  `stack<vector<Task*>>` hold addresses.  The free store is the explicit
  `Heap`, an address is an index into it, and reading an address that holds no
  object (undefined behaviour in C++) makes an operation return `none`.
* `time(nullptr)` / `localtime` is an input `now : Tm` of the operation.
* `cin >> taskNumber` is the input `taskNumber : Int` of the operation.
* A `std::stack` is a list whose head is the top.
* Console output is not part of the state and is left out of the mutators.
-/

namespace ToDoList

/-! ## `struct tm` -/

/-- The broken-down time of `<ctime>`. -/
structure Tm where
  tm_sec : Int
  tm_min : Int
  tm_hour : Int
  tm_mday : Int
  tm_mon : Int
  tm_year : Int
  tm_wday : Int
  tm_yday : Int
  tm_isdst : Int
deriving DecidableEq, Repr

/-- The value-initialised `tm` written `{}` in `Task::markPending`. -/
def Tm.zero : Tm := ⟨0, 0, 0, 0, 0, 0, 0, 0, 0⟩

/-! ## `class Task` -/

/-- The five data members of `class Task`. -/
structure Task where
  description : String
  completed : Bool
  dueDate : String
  tags : List String
  completionDate : Tm
deriving DecidableEq, Repr

namespace Task

/-- The constructor `Task(const string& description)`: it initialises `description` and
`completed`; `dueDate` and `tags` are default-constructed empty, and `completionDate` is
left uninitialised, so its value `indeterminate` is arbitrary. -/
def ctor (description : String) (indeterminate : Tm) : Task :=
  ⟨description, false, "", [], indeterminate⟩

/-- The method `Task::markCompleted`, with the local time read from the clock as `now`. -/
def markCompleted (t : Task) (now : Tm) : Task :=
  { t with completed := true, completionDate := now }

/-- The method `Task::markPending`. -/
def markPending (t : Task) : Task :=
  { t with completed := false, completionDate := Tm.zero }

/-- The method `Task::isCompleted`. -/
def isCompleted (t : Task) : Bool := t.completed

/-- The method `Task::getDescription`. -/
def getDescription (t : Task) : String := t.description

/-- The method `Task::getDueDate`. -/
def getDueDate (t : Task) : String := t.dueDate

/-- The method `Task::setDueDate`. -/
def setDueDate (t : Task) (date : String) : Task :=
  { t with dueDate := date }

/-- The method `Task::getTags`. -/
def getTags (t : Task) : List String := t.tags

/-- The method `Task::addTag` (`tags.push_back(tag)`). -/
def addTag (t : Task) (tag : String) : Task :=
  { t with tags := t.tags ++ [tag] }

/-- The method `Task::getCompletionDate`. -/
def getCompletionDate (t : Task) : Tm := t.completionDate

end Task

/-! ## The free store -/

/-- An address of a `Task` object (`Task*`). -/
abbrev Ptr := Nat

/-- The free store: the `Task` objects created so far; the object at address `p` is the
`p`-th one.  Nothing in the program ever deletes a `Task`. -/
structure Heap where
  objs : List Task
deriving DecidableEq, Repr

namespace Heap

/-- The free store before any `new`. -/
def empty : Heap := ⟨[]⟩

/-- The expression `new Task(...)`: stores the object at a fresh address and returns it. -/
def alloc (h : Heap) (t : Task) : Heap × Ptr := (⟨h.objs ++ [t]⟩, h.objs.length)

/-- Reading through a pointer; `none` when no object lives there. -/
def read (h : Heap) (p : Ptr) : Option Task := h.objs[p]?

/-- Writing through a pointer to a live object. -/
def write (h : Heap) (p : Ptr) (t : Task) : Heap := ⟨h.objs.set p t⟩

end Heap

/-! ## `class TaskBuilder` -/

/-- The single data member `Task* task` of `class TaskBuilder`. -/
structure TaskBuilder where
  task : Ptr
deriving DecidableEq, Repr

namespace TaskBuilder

/-- The constructor `TaskBuilder(description)`: `task(new Task(description))`. -/
def ctor (h : Heap) (description : String) (indeterminate : Tm) : Heap × TaskBuilder :=
  let r := h.alloc (Task.ctor description indeterminate)
  (r.1, ⟨r.2⟩)

/-- The method `TaskBuilder::setDueDate`: `task->setDueDate(dueDate); return *this;`. -/
def setDueDate (h : Heap) (b : TaskBuilder) (dueDate : String) : Option (Heap × TaskBuilder) :=
  match h.read b.task with
  | none => none
  | some t => some (h.write b.task (t.setDueDate dueDate), b)

/-- The method `TaskBuilder::addTag`: `task->addTag(tag); return *this;`. -/
def addTag (h : Heap) (b : TaskBuilder) (tag : String) : Option (Heap × TaskBuilder) :=
  match h.read b.task with
  | none => none
  | some t => some (h.write b.task (t.addTag tag), b)

/-- The method `TaskBuilder::build`: `return task;`. -/
def build (b : TaskBuilder) : Ptr := b.task

end TaskBuilder

/-! ## `class TaskManager` -/

/-- The three data members of `class TaskManager`.  Both stacks have their top at the
head of the list. -/
structure TaskManager where
  tasks : List Ptr
  undoStack : List (List Ptr)
  redoStack : List (List Ptr)
deriving DecidableEq, Repr

/-- The member function `std::stack::top`.  Every call in the source is guarded by a
non-emptiness test, so the value on the empty stack is never used. -/
def top (s : List (List Ptr)) : List Ptr := s.headD []

/-- The member function `std::stack::pop`. -/
def pop (s : List (List Ptr)) : List (List Ptr) := s.tail

/-- The member function `std::stack::push`. -/
def push (s : List (List Ptr)) (v : List Ptr) : List (List Ptr) := v :: s

/-- The private method `TaskManager::displayNumberedTasks`, from display index `i + 1` on:
the lines it prints, or `none` when a listed pointer is not the address of a task. -/
def displayNumberedTasksFrom (h : Heap) : Nat → List Ptr → Option (List String)
  | _, [] => some []
  | i, p :: ps =>
    match h.read p with
    | none => none
    | some t =>
      match displayNumberedTasksFrom h (i + 1) ps with
      | none => none
      | some rest => some ((toString (i + 1) ++ ". " ++ t.getDescription) :: rest)

/-- The private method `TaskManager::displayNumberedTasks`. -/
def displayNumberedTasks (h : Heap) (tasks : List Ptr) : Option (List String) :=
  displayNumberedTasksFrom h 0 tasks

/-- The idiom `tasks.erase(remove_if(tasks.begin(), tasks.end(), pred), tasks.end())` of
`deleteTask`, with `pred` the lambda `task->getDescription() == description`: the elements on
which the lambda is false are kept in their order.  The lambda reads every element through
its pointer. -/
def eraseRemoveIf (h : Heap) (description : String) : List Ptr → Option (List Ptr)
  | [] => some []
  | p :: ps =>
    match h.read p with
    | none => none
    | some t =>
      match eraseRemoveIf h description ps with
      | none => none
      | some rest => some (if t.getDescription = description then rest else p :: rest)

namespace TaskManager

/-- A freshly constructed `TaskManager`: the vector and both stacks are empty. -/
def fresh : TaskManager := ⟨[], [], []⟩

/-- The method `TaskManager::addTask`. -/
def addTask (m : TaskManager) (task : Ptr) : TaskManager :=
  let m1 := { m with tasks := m.tasks ++ [task] }
  let m2 := { m1 with undoStack := push m1.undoStack m1.tasks }
  { m2 with redoStack := [] }

/-- The method `TaskManager::markCompleted`, reading `taskNumber` from the input and `now`
from the clock.  In `taskNumber >= 1 && taskNumber <= tasks.size()` the left test is
evaluated first, so the conversion of `taskNumber` to `size_t` in the right one keeps its
value. -/
def markCompleted (h : Heap) (m : TaskManager) (taskNumber : Int) (now : Tm) :
    Option (Heap × TaskManager) :=
  if m.tasks.isEmpty then some (h, m)
  else
    match displayNumberedTasks h m.tasks with
    | none => none
    | some _ =>
      if taskNumber ≥ 1 ∧ taskNumber ≤ (m.tasks.length : Int) then
        match m.tasks[(taskNumber - 1).toNat]? with
        | none => none
        | some p =>
          match h.read p with
          | none => none
          | some t =>
            let h1 := h.write p (t.markCompleted now)
            let m1 := { m with undoStack := push m.undoStack m.tasks }
            some (h1, { m1 with redoStack := [] })
      else some (h, m)

/-- The method `TaskManager::deleteTask`, reading `taskNumber` from the input. -/
def deleteTask (h : Heap) (m : TaskManager) (taskNumber : Int) :
    Option (Heap × TaskManager) :=
  if m.tasks.isEmpty then some (h, m)
  else
    match displayNumberedTasks h m.tasks with
    | none => none
    | some _ =>
      if taskNumber ≥ 1 ∧ taskNumber ≤ (m.tasks.length : Int) then
        match m.tasks[(taskNumber - 1).toNat]? with
        | none => none
        | some p =>
          match h.read p with
          | none => none
          | some t =>
            match eraseRemoveIf h t.getDescription m.tasks with
            | none => none
            | some kept =>
              let m1 := { m with tasks := kept }
              let m2 := { m1 with undoStack := push m1.undoStack m1.tasks }
              some (h, { m2 with redoStack := [] })
      else some (h, m)

/-- The method `TaskManager::undo`. -/
def undo (m : TaskManager) : TaskManager :=
  if m.undoStack.length > 1 then
    let m1 := { m with redoStack := push m.redoStack (top m.undoStack) }
    let m2 := { m1 with undoStack := pop m1.undoStack }
    { m2 with tasks := top m2.undoStack }
  else m

/-- The method `TaskManager::redo`. -/
def redo (m : TaskManager) : TaskManager :=
  if ¬ m.redoStack.isEmpty then
    let m1 := { m with undoStack := push m.undoStack (top m.redoStack) }
    let m2 := { m1 with redoStack := pop m1.redoStack }
    { m2 with tasks := top m2.undoStack }
  else m

end TaskManager

/-! ## The program: `main` drives one manager over the free store -/

/-- The free store together with the one `TaskManager` of `main`. -/
structure World where
  heap : Heap
  mgr : TaskManager
deriving DecidableEq, Repr

/-- The state at the start of `main`. -/
def World.init : World := ⟨Heap.empty, TaskManager.fresh⟩

/-- Menu choice 1 of `main`:
`TaskBuilder(description).setDueDate(dueDate).build()` followed by `addTask`. -/
def menuAdd (w : World) (description dueDate : String) (indeterminate : Tm) : Option World :=
  let r := TaskBuilder.ctor w.heap description indeterminate
  match TaskBuilder.setDueDate r.1 r.2 dueDate with
  | none => none
  | some r2 => some ⟨r2.1, w.mgr.addTask r2.2.build⟩

/-- One call on the manager.  `add t` hands `addTask` a newly created task object whose
members have the values `t`, as every caller of `addTask` in the source does. -/
inductive Op where
  | add (t : Task)
  | markCompleted (taskNumber : Int) (now : Tm)
  | deleteTask (taskNumber : Int)
  | undo
  | redo
deriving DecidableEq, Repr

/-- The effect of one call; `none` only when a dangling pointer is read. -/
def step (w : World) : Op → Option World
  | Op.add t =>
    let r := w.heap.alloc t
    some ⟨r.1, w.mgr.addTask r.2⟩
  | Op.markCompleted taskNumber now =>
    match w.mgr.markCompleted w.heap taskNumber now with
    | none => none
    | some r => some ⟨r.1, r.2⟩
  | Op.deleteTask taskNumber =>
    match w.mgr.deleteTask w.heap taskNumber with
    | none => none
    | some r => some ⟨r.1, r.2⟩
  | Op.undo => some ⟨w.heap, w.mgr.undo⟩
  | Op.redo => some ⟨w.heap, w.mgr.redo⟩

/-- A sequence of calls, first to last. -/
def run (w : World) : List Op → Option World
  | [] => some w
  | op :: ops =>
    match step w op with
    | none => none
    | some w1 => run w1 ops

/-- The states the program can be in: those a sequence of calls produces from the start. -/
def Reachable (w : World) : Prop := ∃ ops, run World.init ops = some w

/-- What a vector of pointers denotes: the task stored behind each of them. -/
def deref (h : Heap) (ps : List Ptr) : List (Option Task) := ps.map h.read

/-- Every pointer of the vector is the address of a task. -/
def ValidPtrs (h : Heap) (ps : List Ptr) : Prop := ∀ p ∈ ps, p < h.objs.length

instance (h : Heap) (ps : List Ptr) : Decidable (ValidPtrs h ps) := by
  unfold ValidPtrs; infer_instance

/-- The description of the task behind a pointer. -/
def descriptionAt (h : Heap) (p : Ptr) : Option String := (h.read p).map Task.getDescription

/-- The pointers of a vector whose task does not have the description `d`, in order. -/
def withoutDescription (h : Heap) (d : String) (ps : List Ptr) : List Ptr :=
  ps.filter (fun q => decide (descriptionAt h q ≠ some d))

/-- A vector of pointers is well formed over a free store of `n` objects: every entry is
the address of one of them and no address occurs twice. -/
def GoodVec (n : Nat) (ps : List Ptr) : Prop := (∀ p ∈ ps, p < n) ∧ ps.Nodup

/-- The representation invariant of the program state: the task list and every snapshot on
either stack are well formed. -/
def Inv (w : World) : Prop :=
  GoodVec w.heap.objs.length w.mgr.tasks ∧
  (∀ s ∈ w.mgr.undoStack, GoodVec w.heap.objs.length s) ∧
  (∀ s ∈ w.mgr.redoStack, GoodVec w.heap.objs.length s)

/-! ## `TaskManager::viewTasks` -/

/-- The test of the `if` inside the loop of `viewTasks`. -/
def shown (filter : String) (t : Task) : Bool :=
  (decide (filter = "Show completed") && t.isCompleted) ||
  (decide (filter = "Show pending") && !t.isCompleted) ||
  decide (filter = "Show all")

/-- The text `viewTasks` writes for one task, up to its `endl`.  The library function
`asctime` is a parameter. -/
def taskLine (asctime : Tm → String) (t : Task) : String :=
  let s0 := t.getDescription ++ " - " ++ (if t.isCompleted then "Completed" else "Pending")
  let s1 := if t.getDueDate ≠ "" then s0 ++ ", Due: " ++ t.getDueDate else s0
  let s2 := if t.isCompleted then s1 ++ ", Completed On: " ++ asctime t.getCompletionDate
    else s1
  if t.getTags ≠ [] then t.getTags.foldl (fun acc tag => acc ++ tag ++ " ") (s2 ++ ", Tags: ")
  else s2

/-- The `for` loop of `viewTasks`: the lines it writes.  A task is read through its pointer
when the filter is one of the three known ones (for any other filter all three string
comparisons fail before the task is looked at). -/
def viewTasksLoop (asctime : Tm → String) (h : Heap) (filter : String) :
    List Ptr → Option (List String)
  | [] => some []
  | p :: ps =>
    if filter = "Show completed" ∨ filter = "Show pending" ∨ filter = "Show all" then
      match h.read p with
      | none => none
      | some t =>
        match viewTasksLoop asctime h filter ps with
        | none => none
        | some rest => some (if shown filter t then taskLine asctime t :: rest else rest)
    else viewTasksLoop asctime h filter ps

/-- The method `TaskManager::viewTasks`: the lines it writes (each ended by `endl`) before it
calls `pauseExecution`. -/
def viewTasks (asctime : Tm → String) (h : Heap) (m : TaskManager) (filter : String) :
    Option (List String) :=
  if m.tasks.isEmpty then some ["Task List:", "EMPTY"]
  else
    match viewTasksLoop asctime h filter m.tasks with
    | none => none
    | some body => some ("Task List:" :: body)

/-- The text of `taskLine` after the description and the separator, in closed form. -/
def taskLineTail (asctime : Tm → String) (t : Task) : String :=
  (if t.completed then "Completed" else "Pending") ++
  (if t.dueDate ≠ "" then ", Due: " ++ t.dueDate else "") ++
  (if t.completed then ", Completed On: " ++ asctime t.completionDate else "") ++
  (if t.tags ≠ [] then ", Tags: " ++ t.tags.foldl (fun acc tag => acc ++ tag ++ " ") "" else "")

/-! ## Chained calls on a `TaskBuilder` -/

/-- One chained call on a builder. -/
inductive BuilderCall where
  | setDueDate (dueDate : String)
  | addTag (tag : String)
deriving DecidableEq, Repr

/-- The chain `b.c1(...).c2(...)...` of calls, first to last. -/
def chainCalls (h : Heap) (b : TaskBuilder) : List BuilderCall → Option (Heap × TaskBuilder)
  | [] => some (h, b)
  | BuilderCall.setDueDate d :: cs =>
    match TaskBuilder.setDueDate h b d with
    | none => none
    | some r => chainCalls r.1 r.2 cs
  | BuilderCall.addTag t :: cs =>
    match TaskBuilder.addTag h b t with
    | none => none
    | some r => chainCalls r.1 r.2 cs

/-- The expression `TaskBuilder(description).c1(...)...cn(...).build()`: the free store
afterwards and the pointer returned. -/
def buildWith (h : Heap) (description : String) (indeterminate : Tm) (cs : List BuilderCall) :
    Option (Heap × Ptr) :=
  let r := TaskBuilder.ctor h description indeterminate
  match chainCalls r.1 r.2 cs with
  | none => none
  | some r2 => some (r2.1, r2.2.build)

/-- The argument of the last `setDueDate` call of a chain, or `d0` when there is none. -/
def lastDueDate (d0 : String) : List BuilderCall → String
  | [] => d0
  | BuilderCall.setDueDate d :: cs => lastDueDate d cs
  | BuilderCall.addTag _ :: cs => lastDueDate d0 cs

/-- The arguments of the `addTag` calls of a chain, in call order. -/
def addedTags : List BuilderCall → List String
  | [] => []
  | BuilderCall.setDueDate _ :: cs => addedTags cs
  | BuilderCall.addTag t :: cs => t :: addedTags cs

/-! ## The snapshot chain and the history invariant -/

/-- The recorded snapshots in chain order: `undoStack` from its bottom (oldest) to its top,
then `redoStack` from its top (most recently undone) to its bottom. -/
def snapshotChain (m : TaskManager) : List (List Ptr) := m.undoStack.reverse ++ m.redoStack

/-- The oldest entry of a stack (its bottom), if any. -/
def bottom (s : List (List Ptr)) : Option (List Ptr) := s.getLast?

/-- The history invariant of the program state: while `undoStack` is empty nothing has been
created or listed; otherwise the task list is the top of `undoStack` and the bottom of
`undoStack` is the list holding the first task created. -/
def HistInv (w : World) : Prop :=
  match w.mgr.undoStack with
  | [] => w.mgr.tasks = [] ∧ w.mgr.redoStack = [] ∧ w.heap.objs = []
  | t :: rest => w.mgr.tasks = t ∧ bottom (t :: rest) = some [0]

/-! ## Concrete scenarios -/

/-- The example scenario of the specification: from the start, add "Buy milk" with no due
date, add "Buy milk" due "2024-01-01", then delete with task number 1. -/
def buyMilkScenario (g1 g2 : Tm) : Option World :=
  match menuAdd World.init "Buy milk" "" g1 with
  | none => none
  | some w1 =>
    match menuAdd w1 "Buy milk" "2024-01-01" g2 with
    | none => none
    | some w2 => step w2 (Op.deleteTask 1)

/-- A free store with three tasks, two of them with the same description. -/
def sampleHeap : Heap :=
  ⟨[Task.ctor "Buy milk" Tm.zero, Task.ctor "Walk dog" Tm.zero,
    (Task.ctor "Buy milk" Tm.zero).setDueDate "2024-01-01"]⟩

/-- A manager over `sampleHeap` listing its three tasks, with two snapshots to undo and one
to redo. -/
def sampleMgr : TaskManager := ⟨[0, 1, 2], [[0, 1, 2], [0, 1]], [[0, 1]]⟩

/-- A clock reading. -/
def sampleNow : Tm := ⟨30, 15, 10, 1, 10, 126, 0, 304, 0⟩

/-- A stand-in for the library function `asctime` in concrete scenarios. -/
def sampleAsctime (_ : Tm) : String := "Sun Nov  1 10:15:30 2026\n"

/-- Two pending tasks as menu choice 1 creates them. -/
def sampleTasks : List Task :=
  [⟨"Buy milk", false, "", [], Tm.zero⟩, ⟨"Walk dog", false, "2024-01-01", [], Tm.zero⟩]

/-- A run of the program: three adds, a completion, a deletion, two undos. -/
def sampleOps : List Op :=
  [Op.add ⟨"Buy milk", false, "", [], Tm.zero⟩, Op.add ⟨"Walk dog", false, "", [], Tm.zero⟩,
    Op.add ⟨"Buy milk", false, "2024-01-01", [], Tm.zero⟩, Op.markCompleted 2 sampleNow,
    Op.deleteTask 1, Op.undo, Op.undo]

/-- The state `sampleOps` ends in. -/
def sampleWorld : World :=
  ⟨⟨[⟨"Buy milk", false, "", [], Tm.zero⟩, ⟨"Walk dog", true, "", [], sampleNow⟩,
      ⟨"Buy milk", false, "2024-01-01", [], Tm.zero⟩]⟩,
    ⟨[0, 1, 2], [[0, 1, 2], [0, 1], [0]], [[0, 1, 2], [1]]⟩⟩

/-! ## Basic facts about the free store and the helpers -/

theorem Heap.read_of_lt (h : Heap) (p : Ptr) (hp : p < h.objs.length) :
    ∃ t, h.read p = some t := by
  refine ⟨h.objs[p], ?_⟩
  simp [Heap.read, hp]

theorem Heap.lt_of_read (h : Heap) (p : Ptr) (t : Task) (hp : h.read p = some t) :
    p < h.objs.length := by
  unfold Heap.read at hp
  exact (List.getElem?_eq_some.mp hp).1

theorem Heap.read_write_same (h : Heap) (p : Ptr) (t : Task) (hp : p < h.objs.length) :
    (h.write p t).read p = some t := by
  simp [Heap.read, Heap.write, hp]

theorem Heap.read_write_other (h : Heap) (p q : Ptr) (t : Task) (hq : q ≠ p) :
    (h.write p t).read q = h.read q := by
  simp [Heap.read, Heap.write, List.getElem?_set, Ne.symm hq]

theorem Heap.length_write (h : Heap) (p : Ptr) (t : Task) :
    (h.write p t).objs.length = h.objs.length := by
  simp [Heap.write]

theorem ValidPtrs.tail {h : Heap} {p : Ptr} {ps : List Ptr} (hv : ValidPtrs h (p :: ps)) :
    ValidPtrs h ps := fun q hq => hv q (List.mem_cons_of_mem p hq)

theorem displayNumberedTasksFrom_some (h : Heap) (ps : List Ptr) (hv : ValidPtrs h ps) (i : Nat) :
    ∃ out, displayNumberedTasksFrom h i ps = some out := by
  induction ps generalizing i with
  | nil => exact ⟨[], rfl⟩
  | cons p ps ih =>
    obtain ⟨t, ht⟩ := h.read_of_lt p (hv p (List.mem_cons_self p ps))
    obtain ⟨rest, hrest⟩ := ih hv.tail (i + 1)
    simp [displayNumberedTasksFrom, ht, hrest]

theorem eraseRemoveIf_eq (h : Heap) (d : String) (ps : List Ptr) (hv : ValidPtrs h ps) :
    eraseRemoveIf h d ps = some (withoutDescription h d ps) := by
  induction ps with
  | nil => rfl
  | cons p ps ih =>
    obtain ⟨t, ht⟩ := h.read_of_lt p (hv p (List.mem_cons_self p ps))
    by_cases hd : t.getDescription = d
    · simp [eraseRemoveIf, ht, ih hv.tail, withoutDescription, descriptionAt, List.filter_cons, hd]
    · simp [eraseRemoveIf, ht, ih hv.tail, withoutDescription, descriptionAt, List.filter_cons, hd]

theorem taskNumber_index (ps : List Ptr) (k : Int) (h1 : 1 ≤ k) (h2 : k ≤ (ps.length : Int)) :
    ∃ p, ps[(k - 1).toNat]? = some p ∧ p ∈ ps := by
  have hlt : (k - 1).toNat < ps.length := by omega
  exact ⟨ps[(k - 1).toNat], by simp [hlt], List.getElem_mem hlt⟩

/-- The method `deleteTask` on a valid task number, computed. -/
theorem deleteTask_valid (h : Heap) (m : TaskManager) (k : Int) (hv : ValidPtrs h m.tasks)
    (h1 : 1 ≤ k) (h2 : k ≤ (m.tasks.length : Int)) :
    ∃ p t, m.tasks[(k - 1).toNat]? = some p ∧ h.read p = some t ∧
      m.deleteTask h k = some (h, ⟨withoutDescription h t.description m.tasks,
        withoutDescription h t.description m.tasks :: m.undoStack, []⟩) := by
  obtain ⟨p, hp, hmem⟩ := taskNumber_index m.tasks k h1 h2
  obtain ⟨t, ht⟩ := h.read_of_lt p (hv p hmem)
  obtain ⟨out, hout⟩ := displayNumberedTasksFrom_some h m.tasks hv 0
  have hne : m.tasks ≠ [] := by
    intro h0; rw [h0] at hmem; simp at hmem
  have hp2 : m.tasks[k.toNat - 1]? = some p := by
    have hidx : k.toNat - 1 = (k - 1).toNat := by omega
    rw [hidx]; exact hp
  refine ⟨p, t, hp, ht, ?_⟩
  simp [TaskManager.deleteTask, hne, displayNumberedTasks, hout, h1, h2, hp2, ht,
    eraseRemoveIf_eq h _ m.tasks hv, Task.getDescription, push]

/-- The method `markCompleted` on a valid task number, computed. -/
theorem markCompleted_valid (h : Heap) (m : TaskManager) (k : Int) (now : Tm)
    (hv : ValidPtrs h m.tasks) (h1 : 1 ≤ k) (h2 : k ≤ (m.tasks.length : Int)) :
    ∃ p t, m.tasks[(k - 1).toNat]? = some p ∧ h.read p = some t ∧
      m.markCompleted h k now = some (h.write p (t.markCompleted now),
        ⟨m.tasks, m.tasks :: m.undoStack, []⟩) := by
  obtain ⟨p, hp, hmem⟩ := taskNumber_index m.tasks k h1 h2
  obtain ⟨t, ht⟩ := h.read_of_lt p (hv p hmem)
  obtain ⟨out, hout⟩ := displayNumberedTasksFrom_some h m.tasks hv 0
  have hne : m.tasks ≠ [] := by
    intro h0; rw [h0] at hmem; simp at hmem
  have hp2 : m.tasks[k.toNat - 1]? = some p := by
    have hidx : k.toNat - 1 = (k - 1).toNat := by omega
    rw [hidx]; exact hp
  refine ⟨p, t, hp, ht, ?_⟩
  simp [TaskManager.markCompleted, hne, displayNumberedTasks, hout, h1, h2, hp2, ht, push]

theorem deref_alloc (h : Heap) (t : Task) (ps : List Ptr) (hv : ValidPtrs h ps) :
    deref (h.alloc t).1 ps = deref h ps := by
  unfold deref
  apply List.map_congr_left
  intro p hp
  have hlt := hv p hp
  simp [Heap.alloc, Heap.read, List.getElem?_append_left, hlt]

theorem read_alloc_new (h : Heap) (t : Task) : (h.alloc t).1.read (h.alloc t).2 = some t := by
  simp [Heap.alloc, Heap.read]

theorem markCompleted_invalid (h : Heap) (m : TaskManager) (k : Int) (now : Tm)
    (hv : ValidPtrs h m.tasks) (hk : ¬ (1 ≤ k ∧ k ≤ (m.tasks.length : Int))) :
    m.markCompleted h k now = some (h, m) := by
  by_cases hne : m.tasks = []
  · simp [TaskManager.markCompleted, hne]
  · obtain ⟨out, hout⟩ := displayNumberedTasksFrom_some h m.tasks hv 0
    simp [TaskManager.markCompleted, hne, displayNumberedTasks, hout, hk]

theorem deleteTask_invalid (h : Heap) (m : TaskManager) (k : Int)
    (hv : ValidPtrs h m.tasks) (hk : ¬ (1 ≤ k ∧ k ≤ (m.tasks.length : Int))) :
    m.deleteTask h k = some (h, m) := by
  by_cases hne : m.tasks = []
  · simp [TaskManager.deleteTask, hne]
  · obtain ⟨out, hout⟩ := displayNumberedTasksFrom_some h m.tasks hv 0
    simp [TaskManager.deleteTask, hne, displayNumberedTasks, hout, hk]

theorem GoodVec.mono {n n2 : Nat} {ps : List Ptr} (hg : GoodVec n ps) (hle : n ≤ n2) :
    GoodVec n2 ps :=
  ⟨fun p hp => Nat.lt_of_lt_of_le (hg.1 p hp) hle, hg.2⟩

theorem GoodVec.sublist {n : Nat} {ps qs : List Ptr} (hg : GoodVec n ps)
    (hsub : qs.Sublist ps) : GoodVec n qs :=
  ⟨fun p hp => hg.1 p (hsub.subset hp), hg.2.sublist hsub⟩

theorem GoodVec.snoc {n : Nat} {ps : List Ptr} (hg : GoodVec n ps) :
    GoodVec (n + 1) (ps ++ [n]) := by
  refine ⟨?_, ?_⟩
  · intro p hp
    rcases List.mem_append.mp hp with hp | hp
    · exact Nat.lt_succ_of_lt (hg.1 p hp)
    · rw [List.mem_singleton] at hp
      subst hp
      exact Nat.lt_succ_self _
  · refine List.Nodup.append hg.2 (List.nodup_singleton n) ?_
    intro p hp hp2
    rw [List.mem_singleton] at hp2
    subst hp2
    exact absurd (hg.1 p hp) (Nat.lt_irrefl _)

theorem Inv.init : Inv World.init := by
  simp [Inv, World.init, TaskManager.fresh, GoodVec, Heap.empty]

/-- The call `addTask` on a newly created task keeps the invariant. -/
theorem Inv.add {w : World} (hw : Inv w) (t : Task) :
    Inv ⟨(w.heap.alloc t).1, w.mgr.addTask (w.heap.alloc t).2⟩ := by
  obtain ⟨ht, hu, hr⟩ := hw
  have hlen : (w.heap.alloc t).1.objs.length = w.heap.objs.length + 1 := by
    simp [Heap.alloc]
  refine ⟨?_, ?_, ?_⟩
  · simp only [hlen]
    simpa [TaskManager.addTask, Heap.alloc] using ht.snoc
  · intro s hs
    simp only [hlen]
    simp only [TaskManager.addTask, push, List.mem_cons] at hs
    rcases hs with hs | hs
    · subst hs
      simpa [Heap.alloc] using ht.snoc
    · exact (hu s hs).mono (Nat.le_succ _)
  · intro s hs
    simp [TaskManager.addTask] at hs

/-- The method `undo` keeps the invariant. -/
theorem Inv.undo {w : World} (hw : Inv w) : Inv ⟨w.heap, w.mgr.undo⟩ := by
  obtain ⟨h, tasks, undoStack, redoStack⟩ := w
  obtain ⟨ht, hu, hr⟩ := hw
  match undoStack, hu with
  | [], _ => exact ⟨ht, by simp [TaskManager.undo], by simpa [TaskManager.undo] using hr⟩
  | [s], hu => exact ⟨ht, by simpa [TaskManager.undo] using hu,
      by simpa [TaskManager.undo] using hr⟩
  | s :: s2 :: rest, hu =>
    simp only [List.mem_cons, forall_eq_or_imp] at hu
    refine ⟨?_, ?_, ?_⟩
    · simpa [TaskManager.undo, push, pop, top] using hu.2.1
    · simpa [TaskManager.undo, push, pop, top] using hu.2
    · simp only at hr
      simpa [TaskManager.undo, push, pop, top] using ⟨hu.1, hr⟩

/-- The method `redo` keeps the invariant. -/
theorem Inv.redo {w : World} (hw : Inv w) : Inv ⟨w.heap, w.mgr.redo⟩ := by
  obtain ⟨h, tasks, undoStack, redoStack⟩ := w
  obtain ⟨ht, hu, hr⟩ := hw
  match redoStack, hr with
  | [], hr => exact ⟨ht, by simpa [TaskManager.redo] using hu, by simp [TaskManager.redo]⟩
  | s :: rest, hr =>
    simp only [List.mem_cons, forall_eq_or_imp] at hr
    simp only at hu
    refine ⟨?_, ?_, ?_⟩
    · simpa [TaskManager.redo, push, pop, top] using hr.1
    · simpa [TaskManager.redo, push, pop, top] using ⟨hr.1, hu⟩
    · simpa [TaskManager.redo, push, pop, top] using hr.2

/-- Every call returns on a state that satisfies the invariant, and keeps it. -/
theorem step_inv {w : World} (hw : Inv w) (op : Op) : ∃ w2, step w op = some w2 ∧ Inv w2 := by
  cases op with
  | add t => exact ⟨_, rfl, hw.add t⟩
  | undo => exact ⟨_, rfl, hw.undo⟩
  | redo => exact ⟨_, rfl, hw.redo⟩
  | markCompleted k now =>
    by_cases hk : 1 ≤ k ∧ k ≤ (w.mgr.tasks.length : Int)
    · obtain ⟨p, t, _, _, hmc⟩ := markCompleted_valid w.heap w.mgr k now hw.1.1 hk.1 hk.2
      have hs : step w (Op.markCompleted k now) = some ⟨w.heap.write p (t.markCompleted now),
          ⟨w.mgr.tasks, w.mgr.tasks :: w.mgr.undoStack, []⟩⟩ := by
        simp only [step, hmc]
      refine ⟨_, hs, ?_⟩
      obtain ⟨ht, hu, hr⟩ := hw
      refine ⟨?_, ?_, ?_⟩
      · simpa [Heap.write] using ht
      · intro s hs
        simp only [List.mem_cons] at hs
        rcases hs with hs | hs
        · subst hs; simpa [Heap.write] using ht
        · simpa [Heap.write] using hu s hs
      · intro s hs
        simp at hs
    · have hmc := markCompleted_invalid w.heap w.mgr k now hw.1.1 hk
      exact ⟨w, by simp only [step, hmc], hw⟩
  | deleteTask k =>
    by_cases hk : 1 ≤ k ∧ k ≤ (w.mgr.tasks.length : Int)
    · obtain ⟨p, t, _, _, hdel⟩ := deleteTask_valid w.heap w.mgr k hw.1.1 hk.1 hk.2
      have hs : step w (Op.deleteTask k) = some ⟨w.heap,
          ⟨withoutDescription w.heap t.description w.mgr.tasks,
            withoutDescription w.heap t.description w.mgr.tasks :: w.mgr.undoStack, []⟩⟩ := by
        simp only [step, hdel]
      refine ⟨_, hs, ?_⟩
      obtain ⟨ht, hu, hr⟩ := hw
      have hkept : GoodVec w.heap.objs.length (withoutDescription w.heap t.description w.mgr.tasks) :=
        ht.sublist (List.filter_sublist _)
      refine ⟨hkept, ?_, ?_⟩
      · intro s hs
        simp only [List.mem_cons] at hs
        rcases hs with hs | hs
        · subst hs; exact hkept
        · exact hu s hs
      · intro s hs
        simp at hs
    · have hdel := deleteTask_invalid w.heap w.mgr k hw.1.1 hk
      exact ⟨w, by simp only [step, hdel], hw⟩

/-- Every sequence of calls returns on a state that satisfies the invariant, and keeps it. -/
theorem run_inv (ops : List Op) : ∀ {w : World}, Inv w → ∃ w2, run w ops = some w2 ∧ Inv w2 := by
  induction ops with
  | nil => intro w hw; exact ⟨w, rfl, hw⟩
  | cons op ops ih =>
    intro w hw
    obtain ⟨w1, h1, hw1⟩ := step_inv hw op
    obtain ⟨w2, h2, hw2⟩ := ih hw1
    exact ⟨w2, by simp only [run, h1, h2], hw2⟩

/-- Every state the program can be in satisfies the invariant: the hypotheses `ValidPtrs` and
`Nodup` used below hold throughout every run. -/
theorem Reachable.inv {w : World} (hr : Reachable w) : Inv w := by
  obtain ⟨ops, hops⟩ := hr
  obtain ⟨w2, h2, hw2⟩ := run_inv ops Inv.init
  rw [hops] at h2
  cases h2
  exact hw2

/-- No run of the program reads a dangling pointer: every sequence of calls returns. -/
theorem run_init_returns (ops : List Op) : ∃ w, run World.init ops = some w ∧ Reachable w := by
  obtain ⟨w2, h2, _⟩ := run_inv ops Inv.init
  exact ⟨w2, h2, ops, h2⟩

/-- Menu choice 1 of `main` is the call `add` with a pending, untagged task. -/
theorem menuAdd_eq_step (w : World) (description dueDate : String) (g : Tm) :
    menuAdd w description dueDate g =
      step w (Op.add ⟨description, false, dueDate, [], g⟩) := by
  simp [menuAdd, step, TaskBuilder.ctor, TaskBuilder.setDueDate, TaskBuilder.build, Heap.alloc,
    Heap.read, Heap.write, Task.ctor, Task.setDueDate]

/-! ## C1: `deleteTask` removes every task with the selected description -/

/-- C1: for every task number `k` with `1 ≤ k ≤ count`, `deleteTask` returns, leaves every task
object as it was, and makes the task list the old list without the tasks whose description
equals that of the `k`-th task (so the survivors keep their relative order); that new list is
pushed onto `undoStack` and `redoStack` is emptied.  In the example scenario (two "Buy milk"
tasks, delete number 1) the list ends up empty. -/
theorem deleteTask_removes_same_description :
    (∀ (h : Heap) (m : TaskManager) (k : Int), ValidPtrs h m.tasks → 1 ≤ k →
        k ≤ (m.tasks.length : Int) →
        ∃ p t kept, m.tasks[(k - 1).toNat]? = some p ∧ h.read p = some t ∧
          kept = m.tasks.filter (fun q => decide (descriptionAt h q ≠ some t.description)) ∧
          kept.Sublist m.tasks ∧
          deref h kept = (deref h m.tasks).filter
            (fun o => decide (o.map Task.getDescription ≠ some t.description)) ∧
          m.deleteTask h k = some (h, ⟨kept, kept :: m.undoStack, []⟩)) ∧
    (∀ g1 g2 : Tm, (buyMilkScenario g1 g2).map (fun w => w.mgr.tasks) = some []) := by
  constructor
  · intro h m k hv h1 h2
    obtain ⟨p, t, hp, ht, hdel⟩ := deleteTask_valid h m k hv h1 h2
    refine ⟨p, t, _, hp, ht, rfl, List.filter_sublist _, ?_, hdel⟩
    simp only [deref, List.filter_map]
    rfl
  · intro g1 g2
    simp [buyMilkScenario, menuAdd_eq_step, step, Heap.alloc, Heap.empty, World.init,
      TaskManager.fresh, TaskManager.addTask, TaskManager.deleteTask, push,
      displayNumberedTasks, displayNumberedTasksFrom, Heap.read, eraseRemoveIf,
      Task.getDescription]

/-- C1 at `sampleHeap`, `sampleMgr`, task number 1: both "Buy milk" tasks go, "Walk dog" stays. -/
theorem deleteTask_removes_same_description_witness :
    ValidPtrs sampleHeap sampleMgr.tasks ∧ (1 : Int) ≤ 1 ∧
      (1 : Int) ≤ (sampleMgr.tasks.length : Int) ∧
      ∃ p t kept, sampleMgr.tasks[((1 : Int) - 1).toNat]? = some p ∧
        sampleHeap.read p = some t ∧
        kept = sampleMgr.tasks.filter
          (fun q => decide (descriptionAt sampleHeap q ≠ some t.description)) ∧
        kept.Sublist sampleMgr.tasks ∧
        deref sampleHeap kept = (deref sampleHeap sampleMgr.tasks).filter
          (fun o => decide (o.map Task.getDescription ≠ some t.description)) ∧
        sampleMgr.deleteTask sampleHeap 1 =
          some (sampleHeap, ⟨kept, kept :: sampleMgr.undoStack, []⟩) :=
  ⟨by decide, by decide, by decide,
    deleteTask_removes_same_description.1 sampleHeap sampleMgr 1 (by decide) (by decide)
      (by decide)⟩

/-! ## C2: `undo` with more than one snapshot -/

/-- C2: when `undoStack` has more than one entry, `undo` removes its top entry, pushes exactly
that entry onto `redoStack`, and sets the task list to the new top of `undoStack`; the other
entries of both stacks are as before. -/
theorem undo_moves_top_to_redo (m : TaskManager) (hlen : 1 < m.undoStack.length) :
    ∃ t newTop rest, m.undoStack = t :: newTop :: rest ∧
      m.undo = ⟨newTop, newTop :: rest, t :: m.redoStack⟩ := by
  obtain ⟨tasks, undoStack, redoStack⟩ := m
  match undoStack, hlen with
  | t :: newTop :: rest, _ =>
    exact ⟨t, newTop, rest, rfl, by simp [TaskManager.undo, push, pop, top]⟩

/-- C2 at `sampleMgr`. -/
theorem undo_moves_top_to_redo_witness :
    1 < sampleMgr.undoStack.length ∧
      ∃ t newTop rest, sampleMgr.undoStack = t :: newTop :: rest ∧
        sampleMgr.undo = ⟨newTop, newTop :: rest, t :: sampleMgr.redoStack⟩ :=
  ⟨by decide, undo_moves_top_to_redo sampleMgr (by decide)⟩

/-! ## C3: `redo` -/

/-- C3: when `redoStack` is non-empty, `redo` removes its top entry, pushes exactly that entry
onto `undoStack` and sets the task list to it; when `redoStack` is empty, `redo` changes
nothing. -/
theorem redo_behaviour (m : TaskManager) :
    (∀ t rest, m.redoStack = t :: rest → m.redo = ⟨t, t :: m.undoStack, rest⟩) ∧
    (m.redoStack = [] → m.redo = m) := by
  obtain ⟨tasks, undoStack, redoStack⟩ := m
  constructor
  · intro t rest h
    simp only at h
    subst h
    simp [TaskManager.redo, push, pop, top]
  · intro h
    simp only at h
    subst h
    simp [TaskManager.redo]

/-- C3 at `sampleMgr` (one snapshot to redo) and at a fresh manager (nothing to redo). -/
theorem redo_behaviour_witness :
    sampleMgr.redo = ⟨[0, 1], [0, 1] :: sampleMgr.undoStack, []⟩ ∧
      TaskManager.fresh.redo = TaskManager.fresh :=
  ⟨(redo_behaviour sampleMgr).1 [0, 1] [] rfl, (redo_behaviour TaskManager.fresh).2 rfl⟩

/-! ## C4: `undo` straight after the first `addTask` -/

/-- C4: from the start, `addTask` followed by `undo` leaves the list holding the added task,
not the empty list: the only snapshot on `undoStack` is the one taken after the add, so the
guard `undoStack.size() > 1` fails.  (The following `redo` finds `redoStack` empty and keeps
the single-task list.)  After a second add the same `undo` does go back one step. -/
theorem undo_after_first_add_keeps_task (t u : Task) :
    run World.init [Op.add t, Op.undo] = some ⟨⟨[t]⟩, ⟨[0], [[0]], []⟩⟩ ∧
    (run World.init [Op.add t, Op.undo]).map (fun w => deref w.heap w.mgr.tasks)
      = some [some t] ∧
    (run World.init [Op.add t, Op.undo, Op.redo]).map (fun w => deref w.heap w.mgr.tasks)
      = some [some t] ∧
    (run World.init [Op.add t, Op.add u, Op.undo]).map (fun w => deref w.heap w.mgr.tasks)
      = some [some t] := by
  simp [run, step, World.init, Heap.empty, Heap.alloc, TaskManager.fresh, TaskManager.addTask,
    TaskManager.undo, TaskManager.redo, push, pop, top, deref, Heap.read]

/-! ## C5: snapshots share the task objects with the live list -/

/-- C5: from the start, add `a`, add `b`, complete number 2, undo.  The snapshot `[0, 1]`
pushed by the second add holds the address of `b`, not a copy of it, so after the completion
it denotes a list whose second task is completed, and the list `undo` restores still has `b`
completed. -/
theorem markCompleted_survives_undo (a b : Task) (now : Tm) :
    run World.init [Op.add a, Op.add b] = some ⟨⟨[a, b]⟩, ⟨[0, 1], [[0, 1], [0]], []⟩⟩ ∧
    run World.init [Op.add a, Op.add b, Op.markCompleted 2 now]
      = some ⟨⟨[a, b.markCompleted now]⟩, ⟨[0, 1], [[0, 1], [0, 1], [0]], []⟩⟩ ∧
    run World.init [Op.add a, Op.add b, Op.markCompleted 2 now, Op.undo]
      = some ⟨⟨[a, b.markCompleted now]⟩, ⟨[0, 1], [[0, 1], [0]], [[0, 1]]⟩⟩ ∧
    deref ⟨[a, b.markCompleted now]⟩ [0, 1] = [some a, some (b.markCompleted now)] ∧
    (b.markCompleted now).completed = true := by
  simp [run, step, World.init, Heap.empty, Heap.alloc, TaskManager.fresh, TaskManager.addTask,
    TaskManager.undo, TaskManager.markCompleted, displayNumberedTasks,
    displayNumberedTasksFrom, push, pop, top, deref, Heap.read, Heap.write,
    Task.markCompleted]

/-! ## C6: a mutation discards the redo states -/

/-- C6: after `addTask`, after `markCompleted` with a valid number and after `deleteTask` with
a valid number (each of which returns), `redoStack` is empty and a `redo` changes nothing; so
from any manager state, add `a`, undo, add `b`, redo ends in the state of add `a`, undo,
add `b`. -/
theorem mutation_clears_redo :
    (∀ (m : TaskManager) (p : Ptr),
        (m.addTask p).redoStack = [] ∧ (m.addTask p).redo = m.addTask p) ∧
    (∀ (h : Heap) (m : TaskManager) (k : Int) (now : Tm), ValidPtrs h m.tasks → 1 ≤ k →
        k ≤ (m.tasks.length : Int) →
        ∃ r, m.markCompleted h k now = some r ∧ r.2.redoStack = [] ∧ r.2.redo = r.2) ∧
    (∀ (h : Heap) (m : TaskManager) (k : Int), ValidPtrs h m.tasks → 1 ≤ k →
        k ≤ (m.tasks.length : Int) →
        ∃ r, m.deleteTask h k = some r ∧ r.2.redoStack = [] ∧ r.2.redo = r.2) ∧
    (∀ (m : TaskManager) (a b : Ptr),
        (((m.addTask a).undo).addTask b).redo = ((m.addTask a).undo).addTask b) := by
  refine ⟨?_, ?_, ?_, ?_⟩
  · intro m p
    simp [TaskManager.addTask, TaskManager.redo]
  · intro h m k now hv h1 h2
    obtain ⟨p, t, _, _, hmc⟩ := markCompleted_valid h m k now hv h1 h2
    exact ⟨_, hmc, rfl, by simp [TaskManager.redo]⟩
  · intro h m k hv h1 h2
    obtain ⟨p, t, _, _, hdel⟩ := deleteTask_valid h m k hv h1 h2
    exact ⟨_, hdel, rfl, by simp [TaskManager.redo]⟩
  · intro m a b
    simp [TaskManager.addTask, TaskManager.redo]

/-- C6 at `sampleHeap`, `sampleMgr` (which has a snapshot to redo) and task number 2. -/
theorem mutation_clears_redo_witness :
    ValidPtrs sampleHeap sampleMgr.tasks ∧ (1 : Int) ≤ 2 ∧
      (2 : Int) ≤ (sampleMgr.tasks.length : Int) ∧
      (∃ r, sampleMgr.markCompleted sampleHeap 2 sampleNow = some r ∧ r.2.redoStack = [] ∧
        r.2.redo = r.2) ∧
      (∃ r, sampleMgr.deleteTask sampleHeap 2 = some r ∧ r.2.redoStack = [] ∧
        r.2.redo = r.2) :=
  ⟨by decide, by decide, by decide,
    mutation_clears_redo.2.1 sampleHeap sampleMgr 2 sampleNow (by decide) (by decide)
      (by decide),
    mutation_clears_redo.2.2.1 sampleHeap sampleMgr 2 (by decide) (by decide) (by decide)⟩

/-! ## C7: `addTask` -/

/-- C7: `addTask` is total; the new task list is the old one with the task appended at the
end, the new `undoStack` is the old one with that new list pushed on top, and `redoStack` is
empty.  For a newly created task `t` over valid pointers, the list of tasks denoted grows by
exactly `t` at the end. -/
theorem addTask_appends_and_snapshots :
    (∀ (m : TaskManager) (p : Ptr),
        m.addTask p = ⟨m.tasks ++ [p], (m.tasks ++ [p]) :: m.undoStack, []⟩) ∧
    (∀ (w : World) (t : Task), ValidPtrs w.heap w.mgr.tasks →
        ∃ w2, step w (Op.add t) = some w2 ∧
          deref w2.heap w2.mgr.tasks = deref w.heap w.mgr.tasks ++ [some t] ∧
          w2.mgr.undoStack = w2.mgr.tasks :: w.mgr.undoStack ∧ w2.mgr.redoStack = []) := by
  constructor
  · intro m p
    simp [TaskManager.addTask, push]
  · intro w t hv
    refine ⟨_, rfl, ?_, ?_, ?_⟩
    · have h1 := deref_alloc w.heap t w.mgr.tasks hv
      have h2 := read_alloc_new w.heap t
      simp only [TaskManager.addTask, deref, List.map_append, List.map_cons, List.map_nil] at *
      rw [h1, h2]
    · simp [TaskManager.addTask, push]
    · simp [TaskManager.addTask]

/-- C7 at `sampleHeap`, `sampleMgr` and a new "Call mum" task. -/
theorem addTask_appends_and_snapshots_witness :
    ValidPtrs sampleHeap sampleMgr.tasks ∧
      ∃ w2, step ⟨sampleHeap, sampleMgr⟩ (Op.add (Task.ctor "Call mum" Tm.zero)) = some w2 ∧
        deref w2.heap w2.mgr.tasks
          = deref sampleHeap sampleMgr.tasks ++ [some (Task.ctor "Call mum" Tm.zero)] ∧
        w2.mgr.undoStack = w2.mgr.tasks :: sampleMgr.undoStack ∧ w2.mgr.redoStack = [] :=
  ⟨by decide,
    addTask_appends_and_snapshots.2 ⟨sampleHeap, sampleMgr⟩ (Task.ctor "Call mum" Tm.zero)
      (by decide)⟩

/-! ## C8: `markCompleted` with a valid task number -/

/-- C8: for every task number `k` with `1 ≤ k ≤ count`, `markCompleted` returns; the `k`-th task
gets `completed = true` (and the clock reading) and keeps its description, due date and tags;
the vector of tasks, hence its length and order, is the same; every other task object is
untouched, so with pairwise distinct entries the task at every other position is unchanged;
the list is pushed onto `undoStack` and `redoStack` is emptied. -/
theorem markCompleted_completes_kth (h : Heap) (m : TaskManager) (k : Int) (now : Tm)
    (hv : ValidPtrs h m.tasks) (h1 : 1 ≤ k) (h2 : k ≤ (m.tasks.length : Int)) :
    ∃ p t t2 hp2, m.tasks[(k - 1).toNat]? = some p ∧ h.read p = some t ∧
      m.markCompleted h k now = some (hp2, ⟨m.tasks, m.tasks :: m.undoStack, []⟩) ∧
      hp2.read p = some t2 ∧ t2.completed = true ∧ t2.completionDate = now ∧
      t2.description = t.description ∧ t2.dueDate = t.dueDate ∧ t2.tags = t.tags ∧
      hp2.objs.length = h.objs.length ∧
      (∀ q, q ≠ p → hp2.read q = h.read q) ∧
      (m.tasks.Nodup → ∀ i q, m.tasks[i]? = some q → i ≠ (k - 1).toNat →
        hp2.read q = h.read q) := by
  obtain ⟨p, t, hp, ht, hmc⟩ := markCompleted_valid h m k now hv h1 h2
  have hlt := h.lt_of_read p t ht
  refine ⟨p, t, t.markCompleted now, _, hp, ht, hmc, h.read_write_same p _ hlt, rfl, rfl, rfl,
    rfl, rfl, h.length_write p _, fun q hq => h.read_write_other p q _ hq, ?_⟩
  intro hnd i q hi hne
  apply h.read_write_other p q _
  intro hqp
  subst hqp
  have hilt : i < m.tasks.length := (List.getElem?_eq_some.mp hi).1
  exact hne (List.getElem?_inj hilt hnd (hi.trans hp.symm))

/-- C8 at `sampleHeap`, `sampleMgr`, task number 2. -/
theorem markCompleted_completes_kth_witness :
    ValidPtrs sampleHeap sampleMgr.tasks ∧ (1 : Int) ≤ 2 ∧
      (2 : Int) ≤ (sampleMgr.tasks.length : Int) ∧ sampleMgr.tasks.Nodup ∧
      ∃ p t t2 hp2, sampleMgr.tasks[((2 : Int) - 1).toNat]? = some p ∧
        sampleHeap.read p = some t ∧
        sampleMgr.markCompleted sampleHeap 2 sampleNow
          = some (hp2, ⟨sampleMgr.tasks, sampleMgr.tasks :: sampleMgr.undoStack, []⟩) ∧
        hp2.read p = some t2 ∧ t2.completed = true ∧ t2.completionDate = sampleNow ∧
        t2.description = t.description ∧ t2.dueDate = t.dueDate ∧ t2.tags = t.tags ∧
        hp2.objs.length = sampleHeap.objs.length ∧
        (∀ q, q ≠ p → hp2.read q = sampleHeap.read q) ∧
        (sampleMgr.tasks.Nodup → ∀ i q, sampleMgr.tasks[i]? = some q →
          i ≠ ((2 : Int) - 1).toNat → hp2.read q = sampleHeap.read q) :=
  ⟨by decide, by decide, by decide, by decide,
    markCompleted_completes_kth sampleHeap sampleMgr 2 sampleNow (by decide) (by decide)
      (by decide)⟩

/-! ## C9: an invalid task number, or an empty list, changes nothing -/

/-- C9: when the task list is empty, or the entered number is below 1 or above the count,
both `markCompleted` and `deleteTask` return with the free store (every task) and the manager
(task list, `undoStack`, `redoStack`) exactly as they were; nothing is pushed. -/
theorem invalid_number_changes_nothing (h : Heap) (m : TaskManager) (k : Int) (now : Tm)
    (hv : ValidPtrs h m.tasks)
    (hk : m.tasks = [] ∨ k < 1 ∨ (m.tasks.length : Int) < k) :
    m.markCompleted h k now = some (h, m) ∧ m.deleteTask h k = some (h, m) := by
  have hbad : ¬ (1 ≤ k ∧ k ≤ (m.tasks.length : Int)) := by
    rcases hk with h0 | h0 | h0
    · simp [h0]; omega
    · omega
    · omega
  exact ⟨markCompleted_invalid h m k now hv hbad, deleteTask_invalid h m k hv hbad⟩

/-- C9 at `sampleHeap`, `sampleMgr` with the numbers 0, -3 and 4 (one above the count), and
at a fresh manager with the number 1. -/
theorem invalid_number_changes_nothing_witness :
    (sampleMgr.markCompleted sampleHeap 0 sampleNow = some (sampleHeap, sampleMgr) ∧
      sampleMgr.deleteTask sampleHeap 0 = some (sampleHeap, sampleMgr)) ∧
    (sampleMgr.markCompleted sampleHeap (-3) sampleNow = some (sampleHeap, sampleMgr) ∧
      sampleMgr.deleteTask sampleHeap (-3) = some (sampleHeap, sampleMgr)) ∧
    (sampleMgr.markCompleted sampleHeap 4 sampleNow = some (sampleHeap, sampleMgr) ∧
      sampleMgr.deleteTask sampleHeap 4 = some (sampleHeap, sampleMgr)) ∧
    (TaskManager.fresh.markCompleted Heap.empty 1 sampleNow
        = some (Heap.empty, TaskManager.fresh) ∧
      TaskManager.fresh.deleteTask Heap.empty 1 = some (Heap.empty, TaskManager.fresh)) :=
  ⟨invalid_number_changes_nothing sampleHeap sampleMgr 0 sampleNow (by decide)
      (Or.inr (Or.inl (by decide))),
    invalid_number_changes_nothing sampleHeap sampleMgr (-3) sampleNow (by decide)
      (Or.inr (Or.inl (by decide))),
    invalid_number_changes_nothing sampleHeap sampleMgr 4 sampleNow (by decide)
      (Or.inr (Or.inr (by decide))),
    invalid_number_changes_nothing Heap.empty TaskManager.fresh 1 sampleNow (by decide)
      (Or.inl rfl)⟩

/-! ## C10: `undo` with at most one snapshot -/

/-- C10: when `undoStack` has one entry or none, `undo` leaves the task list, `undoStack` and
`redoStack` unchanged. -/
theorem undo_noop_of_at_most_one (m : TaskManager) (hlen : m.undoStack.length ≤ 1) :
    m.undo = m := by
  have hnot : ¬ (1 < m.undoStack.length) := by omega
  simp [TaskManager.undo, hnot]

/-- C10 at a fresh manager (no snapshot) and after one `addTask` (one snapshot). -/
theorem undo_noop_of_at_most_one_witness :
    TaskManager.fresh.undo = TaskManager.fresh ∧
      (TaskManager.fresh.addTask 0).undo = TaskManager.fresh.addTask 0 :=
  ⟨undo_noop_of_at_most_one TaskManager.fresh (by decide),
    undo_noop_of_at_most_one (TaskManager.fresh.addTask 0) (by decide)⟩

/-! ## The history invariant holds in every reachable state -/

theorem bottom_push (s : List (List Ptr)) (x : List Ptr) (hs : s ≠ []) :
    bottom (push s x) = bottom s := by
  cases s with
  | nil => exact absurd rfl hs
  | cons y l => simp [bottom, push, List.getLast?_cons_cons]

theorem HistInv.at_init : HistInv World.init := by
  simp [HistInv, World.init, TaskManager.fresh, Heap.empty]

/-- The call `addTask` on a newly created task keeps the history invariant. -/
theorem HistInv.after_add {w : World} (hw : HistInv w) (t : Task) :
    HistInv ⟨(w.heap.alloc t).1, w.mgr.addTask (w.heap.alloc t).2⟩ := by
  obtain ⟨⟨objs⟩, ⟨tasks, undoStack, redoStack⟩⟩ := w
  cases undoStack with
  | nil =>
    simp only [HistInv] at hw
    obtain ⟨h1, _, h3⟩ := hw
    subst h1; subst h3
    simp [HistInv, TaskManager.addTask, Heap.alloc, push, bottom]
  | cons s rest =>
    simp only [HistInv] at hw
    simp only [HistInv, TaskManager.addTask, Heap.alloc, push, true_and]
    have hb := bottom_push (s :: rest) (tasks ++ [objs.length]) (by simp)
    simp only [push] at hb
    rw [hb]; exact hw.2

/-- Pushing the current list after a change that needs a non-empty list keeps the history
invariant. -/
theorem HistInv.pushed {h h2 : Heap} {m : TaskManager} (hw : HistInv ⟨h, m⟩)
    (hne : m.tasks ≠ []) (kept : List Ptr) :
    HistInv ⟨h2, ⟨kept, kept :: m.undoStack, []⟩⟩ := by
  obtain ⟨tasks, undoStack, redoStack⟩ := m
  cases undoStack with
  | nil =>
    simp only [HistInv] at hw
    exact absurd hw.1 hne
  | cons s rest =>
    simp only [HistInv] at hw
    simp only [HistInv, true_and]
    have hb := bottom_push (s :: rest) kept (by simp)
    simp only [push] at hb
    rw [hb]; exact hw.2

/-- The method `undo` keeps the history invariant. -/
theorem HistInv.after_undo {w : World} (hw : HistInv w) : HistInv ⟨w.heap, w.mgr.undo⟩ := by
  obtain ⟨h, ⟨tasks, undoStack, redoStack⟩⟩ := w
  match undoStack, hw with
  | [], hw => simpa [TaskManager.undo] using hw
  | [s], hw => simpa [TaskManager.undo] using hw
  | s :: s2 :: rest, hw =>
    simp only [HistInv] at hw
    have hb := bottom_push (s2 :: rest) s (by simp)
    simp only [push] at hb
    simp only [HistInv, TaskManager.undo, push, pop, top, List.length_cons]
    simp only [List.headD_cons, List.tail_cons]
    simpa [hb] using hw.2

/-- The method `redo` keeps the history invariant. -/
theorem HistInv.after_redo {w : World} (hw : HistInv w) : HistInv ⟨w.heap, w.mgr.redo⟩ := by
  obtain ⟨h, ⟨tasks, undoStack, redoStack⟩⟩ := w
  match redoStack, hw with
  | [], hw => simpa [TaskManager.redo] using hw
  | r :: rs, hw =>
    cases undoStack with
    | nil =>
      simp only [HistInv] at hw
      exact absurd hw.2.1 (by simp)
    | cons s rest =>
      simp only [HistInv] at hw
      have hb := bottom_push (s :: rest) r (by simp)
      simp only [push] at hb
      simp [HistInv, TaskManager.redo, push, pop, top, hb, hw.2]

/-- Every call keeps the history invariant. -/
theorem step_hist {w : World} (hi : Inv w) (hw : HistInv w) (op : Op) :
    ∀ w2, step w op = some w2 → HistInv w2 := by
  intro w2 hstep
  cases op with
  | add t => simp only [step, Option.some.injEq] at hstep; subst hstep; exact hw.after_add t
  | undo => simp only [step, Option.some.injEq] at hstep; subst hstep; exact hw.after_undo
  | redo => simp only [step, Option.some.injEq] at hstep; subst hstep; exact hw.after_redo
  | markCompleted k now =>
    by_cases hk : 1 ≤ k ∧ k ≤ (w.mgr.tasks.length : Int)
    · obtain ⟨p, t, hp, _, hmc⟩ := markCompleted_valid w.heap w.mgr k now hi.1.1 hk.1 hk.2
      simp only [step, hmc, Option.some.injEq] at hstep
      subst hstep
      have hne : w.mgr.tasks ≠ [] := by
        intro h0; rw [h0] at hp; simp at hp
      exact HistInv.pushed hw hne w.mgr.tasks
    · have hmc := markCompleted_invalid w.heap w.mgr k now hi.1.1 hk
      simp only [step, hmc, Option.some.injEq] at hstep
      subst hstep; exact hw
  | deleteTask k =>
    by_cases hk : 1 ≤ k ∧ k ≤ (w.mgr.tasks.length : Int)
    · obtain ⟨p, t, hp, _, hdel⟩ := deleteTask_valid w.heap w.mgr k hi.1.1 hk.1 hk.2
      simp only [step, hdel, Option.some.injEq] at hstep
      subst hstep
      have hne : w.mgr.tasks ≠ [] := by
        intro h0; rw [h0] at hp; simp at hp
      exact HistInv.pushed hw hne _
    · have hdel := deleteTask_invalid w.heap w.mgr k hi.1.1 hk
      simp only [step, hdel, Option.some.injEq] at hstep
      subst hstep; exact hw

/-- Every sequence of calls keeps both invariants. -/
theorem run_hist (ops : List Op) :
    ∀ {w : World}, Inv w → HistInv w → ∀ w2, run w ops = some w2 → HistInv w2 := by
  induction ops with
  | nil =>
    intro w _ hw w2 hrun
    simp only [run, Option.some.injEq] at hrun
    subst hrun; exact hw
  | cons op ops ih =>
    intro w hi hw w2 hrun
    obtain ⟨w1, h1, hi1⟩ := step_inv hi op
    simp only [run, h1] at hrun
    exact ih hi1 (step_hist hi hw op w1 h1) w2 hrun

/-- Every state the program can be in satisfies the history invariant. -/
theorem Reachable.hist {w : World} (hr : Reachable w) : HistInv w := by
  obtain ⟨ops, hops⟩ := hr
  exact run_hist ops Inv.init HistInv.at_init w hops

/-- In a reachable state with a non-empty `undoStack` the task list is its top. -/
theorem Reachable.tasks_eq_top {w : World} (hr : Reachable w) (hne : w.mgr.undoStack ≠ []) :
    w.mgr.tasks = top w.mgr.undoStack := by
  have hh := hr.hist
  obtain ⟨h, ⟨tasks, undoStack, redoStack⟩⟩ := w
  cases undoStack with
  | nil => exact absurd rfl hne
  | cons s rest => simp only [HistInv] at hh; simpa [top] using hh.1

/-- In a reachable state with an empty `undoStack` the task list and `redoStack` are empty. -/
theorem Reachable.empty_of_no_undo {w : World} (hr : Reachable w) (he : w.mgr.undoStack = []) :
    w.mgr.tasks = [] ∧ w.mgr.redoStack = [] := by
  have hh := hr.hist
  obtain ⟨h, ⟨tasks, undoStack, redoStack⟩⟩ := w
  simp only at he
  subst he
  simp only [HistInv] at hh
  exact ⟨hh.1, hh.2.1⟩

/-- In a reachable state the bottom of a non-empty `undoStack` is the list holding the first
task created, never the empty list. -/
theorem Reachable.bottom_eq {w : World} (hr : Reachable w) (hne : w.mgr.undoStack ≠ []) :
    bottom w.mgr.undoStack = some [0] := by
  have hh := hr.hist
  obtain ⟨h, ⟨tasks, undoStack, redoStack⟩⟩ := w
  cases undoStack with
  | nil => exact absurd rfl hne
  | cons s rest => simp only [HistInv] at hh; exact hh.2

/-! ## C11: the bottom of `undoStack` -/

/-- C11: from the start, one `addTask` (a successful mutation) leaves `undoStack` non-empty,
but its bottom entry is the one-task list just pushed, not the empty list: no snapshot of
the initial empty list is ever recorded. -/
theorem undoStack_bottom_after_first_add (t : Task) :
    run World.init [Op.add t] = some ⟨⟨[t]⟩, ⟨[0], [[0]], []⟩⟩ ∧
    (run World.init [Op.add t]).map (fun w => bottom w.mgr.undoStack) = some (some [0]) ∧
    (run World.init [Op.add t]).map (fun w => deref w.heap [0]) = some [some t] ∧
    (run World.init [Op.add t]).map (fun w => bottom w.mgr.undoStack) ≠ some (some []) := by
  simp [run, step, World.init, Heap.empty, Heap.alloc, TaskManager.fresh, TaskManager.addTask,
    push, bottom, deref, Heap.read]

/-! ## C12: `undo` and `redo` keep the snapshot chain -/

/-- C12: for every manager state, the chain of snapshots (`undoStack` from oldest to newest,
then `redoStack` from its top down) is the same after `undo` as before, and the same after
`redo` as before: of the five operations only add, complete and delete can change it. -/
theorem undo_redo_keep_chain (m : TaskManager) :
    snapshotChain m.undo = snapshotChain m ∧ snapshotChain m.redo = snapshotChain m := by
  obtain ⟨tasks, undoStack, redoStack⟩ := m
  constructor
  · match undoStack with
    | [] => simp [TaskManager.undo]
    | [s] => simp [TaskManager.undo]
    | s :: s2 :: rest => simp [TaskManager.undo, snapshotChain, push, pop, top]
  · match redoStack with
    | [] => simp [TaskManager.redo]
    | r :: rs => simp [TaskManager.redo, snapshotChain, push, pop, top]

/-! ## C15: `Task::markCompleted` and `Task::markPending` -/

/-- C15: `markCompleted` sets `completed` and stores the clock reading (a second call just
replaces the reading); `markPending` clears `completed` and resets the reading to the zero
value; both keep description, due date and tags.  So `markPending` after `markCompleted`
gives a pending task with a cleared reading. -/
theorem task_markCompleted_markPending (t : Task) (now now2 : Tm) :
    (t.markCompleted now).completed = true ∧ (t.markCompleted now).completionDate = now ∧
    (t.markCompleted now).markCompleted now2 = t.markCompleted now2 ∧
    t.markPending.completed = false ∧ t.markPending.completionDate = Tm.zero ∧
    (t.markCompleted now).description = t.description ∧
    (t.markCompleted now).dueDate = t.dueDate ∧ (t.markCompleted now).tags = t.tags ∧
    t.markPending.description = t.description ∧ t.markPending.dueDate = t.dueDate ∧
    t.markPending.tags = t.tags ∧
    (t.markCompleted now).markPending = ⟨t.description, false, t.dueDate, t.tags, Tm.zero⟩ := by
  simp [Task.markCompleted, Task.markPending]

/-! ## C17: the task list is the top of `undoStack` -/

/-- C17: in every reachable state, if `undoStack` is non-empty the task list equals its top
entry, and if `redoStack` is non-empty then `undoStack` is non-empty. -/
theorem reachable_tasks_top_of_undoStack (w : World) (hr : Reachable w) :
    (w.mgr.undoStack ≠ [] → w.mgr.tasks = top w.mgr.undoStack) ∧
    (∀ t rest, w.mgr.undoStack = t :: rest → w.mgr.tasks = t) ∧
    (w.mgr.redoStack ≠ [] → w.mgr.undoStack ≠ []) := by
  refine ⟨hr.tasks_eq_top, ?_, ?_⟩
  · intro t rest he
    have h1 := hr.tasks_eq_top (by rw [he]; simp)
    rw [h1, he]; rfl
  · intro hne he
    exact hne (hr.empty_of_no_undo he).2

/-- C17 at the state `sampleOps` ends in. -/
theorem reachable_tasks_top_of_undoStack_witness :
    Reachable sampleWorld ∧ sampleWorld.mgr.undoStack ≠ [] ∧ sampleWorld.mgr.redoStack ≠ [] ∧
      sampleWorld.mgr.tasks = top sampleWorld.mgr.undoStack ∧
      sampleWorld.mgr.undoStack ≠ [] :=
  ⟨⟨sampleOps, by decide⟩, by decide, by decide,
    (reachable_tasks_top_of_undoStack sampleWorld ⟨sampleOps, by decide⟩).1 (by decide),
    (reachable_tasks_top_of_undoStack sampleWorld ⟨sampleOps, by decide⟩).2.2 (by decide)⟩

/-! ## C18: `undo` and `redo` are mutually inverse on reachable states -/

/-- C18: in every reachable state, if `undoStack` has more than one entry then `redo` after
`undo` gives back the same task list, `undoStack` and `redoStack`; and if `redoStack` is
non-empty then `undo` after `redo` gives them back. -/
theorem undo_redo_inverse (w : World) (hr : Reachable w) :
    (1 < w.mgr.undoStack.length → w.mgr.undo.redo = w.mgr) ∧
    (w.mgr.redoStack ≠ [] → w.mgr.redo.undo = w.mgr) := by
  have htop := hr.tasks_eq_top
  have hemp := hr.empty_of_no_undo
  obtain ⟨h, ⟨tasks, undoStack, redoStack⟩⟩ := w
  constructor
  · intro hlen
    match undoStack, hlen, htop with
    | s :: s2 :: rest, _, htop =>
      have ht : tasks = s := by simpa [top] using htop (by simp)
      subst ht
      simp [TaskManager.undo, TaskManager.redo, push, pop, top]
  · intro hne
    match redoStack, hne, hemp with
    | r :: rs, _, hemp =>
      match undoStack, htop, hemp with
      | [], _, hemp => exact absurd (hemp rfl).2 (by simp)
      | s :: rest, htop, _ =>
        have ht : tasks = s := by simpa [top] using htop (by simp)
        subst ht
        simp [TaskManager.undo, TaskManager.redo, push, pop, top]

/-- C18 at the state `sampleOps` ends in. -/
theorem undo_redo_inverse_witness :
    Reachable sampleWorld ∧ 1 < sampleWorld.mgr.undoStack.length ∧
      sampleWorld.mgr.redoStack ≠ [] ∧ sampleWorld.mgr.undo.redo = sampleWorld.mgr ∧
      sampleWorld.mgr.redo.undo = sampleWorld.mgr :=
  ⟨⟨sampleOps, by decide⟩, by decide, by decide,
    (undo_redo_inverse sampleWorld ⟨sampleOps, by decide⟩).1 (by decide),
    (undo_redo_inverse sampleWorld ⟨sampleOps, by decide⟩).2 (by decide)⟩

/-! ## C19: `undo` straight after `deleteTask` -/

/-- C19: in every reachable state and for every task number `k` with `1 ≤ k ≤ count`,
`deleteTask` followed by `undo` returns with the task list and every task object exactly as
before the deletion, so every removed task is back at its position and no other task moved. -/
theorem deleteTask_then_undo_restores (w : World) (hr : Reachable w) (k : Int) (h1 : 1 ≤ k)
    (h2 : k ≤ (w.mgr.tasks.length : Int)) :
    ∃ w2, run w [Op.deleteTask k, Op.undo] = some w2 ∧ w2.heap = w.heap ∧
      w2.mgr.tasks = w.mgr.tasks ∧ deref w2.heap w2.mgr.tasks = deref w.heap w.mgr.tasks := by
  obtain ⟨p, t, hp, _, hdel⟩ := deleteTask_valid w.heap w.mgr k hr.inv.1.1 h1 h2
  have hne : w.mgr.tasks ≠ [] := by
    intro h0; rw [h0] at hp; simp at hp
  have hu : w.mgr.undoStack ≠ [] := fun he => hne (hr.empty_of_no_undo he).1
  have htop := hr.tasks_eq_top hu
  obtain ⟨h, ⟨tasks, undoStack, redoStack⟩⟩ := w
  match undoStack, hu, htop with
  | s :: rest, _, htop =>
    have ht : tasks = s := by simpa [top] using htop
    subst ht
    refine ⟨⟨h, ⟨tasks, tasks :: rest,
      withoutDescription h t.description tasks :: []⟩⟩, ?_, rfl, rfl, rfl⟩
    simp only [run, step, hdel]
    simp [TaskManager.undo, push, pop, top]

/-- C19 at the state `sampleOps` ends in, deleting number 1 (both "Buy milk" tasks go and
come back). -/
theorem deleteTask_then_undo_restores_witness :
    Reachable sampleWorld ∧ (1 : Int) ≤ 1 ∧ (1 : Int) ≤ (sampleWorld.mgr.tasks.length : Int) ∧
      ∃ w2, run sampleWorld [Op.deleteTask 1, Op.undo] = some w2 ∧ w2.heap = sampleWorld.heap ∧
        w2.mgr.tasks = sampleWorld.mgr.tasks ∧
        deref w2.heap w2.mgr.tasks = deref sampleWorld.heap sampleWorld.mgr.tasks :=
  ⟨⟨sampleOps, by decide⟩, by decide, by decide,
    deleteTask_then_undo_restores sampleWorld ⟨sampleOps, by decide⟩ 1 (by decide)
      (by decide)⟩

/-! ## Facts about `viewTasks` and the builder -/

theorem foldl_tags_append (tags : List String) (init : String) :
    tags.foldl (fun acc tag => acc ++ tag ++ " ") init
      = init ++ tags.foldl (fun acc tag => acc ++ tag ++ " ") "" := by
  induction tags generalizing init with
  | nil => simp
  | cons tag tags ih =>
    simp only [List.foldl_cons]
    rw [ih (init ++ tag ++ " "), ih ("" ++ tag ++ " ")]
    simp [String.append_assoc]

/-- A task line is the description, the separator and the closed-form tail. -/
theorem taskLine_eq_tail (asctime : Tm → String) (t : Task) :
    taskLine asctime t = t.description ++ (" - " ++ taskLineTail asctime t) := by
  unfold taskLine taskLineTail
  simp only [Task.getDescription, Task.isCompleted, Task.getDueDate, Task.getTags,
    Task.getCompletionDate]
  split_ifs <;>
    first
    | (conv_lhs => rw [foldl_tags_append]
       simp only [String.append_assoc, String.append_empty])
    | simp only [String.append_assoc, String.append_empty]

theorem taskLine_ne_EMPTY (asctime : Tm → String) (t : Task) :
    taskLine asctime t ≠ "EMPTY" := by
  intro h
  have hmem : ' ' ∈ (taskLine asctime t).data := by
    rw [taskLine_eq_tail]
    simp [String.data_append]
  rw [h] at hmem
  revert hmem
  decide

theorem deref_add (h : Heap) (t : Task) (ps : List Ptr) (hv : ValidPtrs h ps) :
    deref (h.alloc t).1 (ps ++ [(h.alloc t).2]) = deref h ps ++ [some t] := by
  have h1 := deref_alloc h t ps hv
  have h2 := read_alloc_new h t
  simp only [deref, List.map_append, List.map_cons, List.map_nil] at *
  rw [h1, h2]

/-- Adding the tasks `ts` one after the other returns and extends the denoted list by `ts`. -/
theorem run_adds (ts : List Task) :
    ∀ {w : World}, Inv w → ∃ w2, run w (ts.map Op.add) = some w2 ∧ Inv w2 ∧
      deref w2.heap w2.mgr.tasks = deref w.heap w.mgr.tasks ++ ts.map some := by
  induction ts with
  | nil => intro w hw; exact ⟨w, rfl, hw, by simp⟩
  | cons t ts ih =>
    intro w hw
    obtain ⟨w2, hrun, hi2, hd2⟩ := ih (hw.add t)
    refine ⟨w2, by simpa [run, step] using hrun, hi2, ?_⟩
    rw [hd2]
    have hd := deref_add w.heap t w.mgr.tasks hw.1.1
    simp only [TaskManager.addTask] at hd ⊢
    rw [hd]
    simp

/-- The loop of `viewTasks` under one of the three known filters. -/
theorem viewTasksLoop_known (asctime : Tm → String) (h : Heap) (filter : String)
    (hf : filter = "Show completed" ∨ filter = "Show pending" ∨ filter = "Show all")
    (ps : List Ptr) :
    ∀ ts : List Task, deref h ps = ts.map some →
      viewTasksLoop asctime h filter ps
        = some ((ts.filter (shown filter)).map (taskLine asctime)) := by
  induction ps with
  | nil =>
    intro ts hd
    cases ts with
    | nil => rfl
    | cons t ts => simp [deref] at hd
  | cons p ps ih =>
    intro ts hd
    cases ts with
    | nil => simp [deref] at hd
    | cons t ts =>
      simp only [deref, List.map_cons, List.cons.injEq] at hd
      have hrest := ih ts hd.2
      simp only [viewTasksLoop, hf, if_true, hd.1, hrest, List.filter_cons]
      cases shown filter t <;> simp

/-- The loop of `viewTasks` under any other filter writes nothing. -/
theorem viewTasksLoop_unknown (asctime : Tm → String) (h : Heap) (filter : String)
    (hf : ¬ (filter = "Show completed" ∨ filter = "Show pending" ∨ filter = "Show all"))
    (ps : List Ptr) : viewTasksLoop asctime h filter ps = some [] := by
  induction ps with
  | nil => rfl
  | cons p ps ih => simp only [viewTasksLoop, hf, if_false, ih]

theorem shown_unknown (filter : String)
    (hf : ¬ (filter = "Show completed" ∨ filter = "Show pending" ∨ filter = "Show all"))
    (t : Task) : shown filter t = false := by
  simp only [not_or] at hf
  simp [shown, hf.1, hf.2.1, hf.2.2]

/-- The loop of `viewTasks` over valid pointers, for every filter. -/
theorem viewTasksLoop_eq (asctime : Tm → String) (h : Heap) (filter : String)
    (ps : List Ptr) (ts : List Task) (hd : deref h ps = ts.map some) :
    viewTasksLoop asctime h filter ps
      = some ((ts.filter (shown filter)).map (taskLine asctime)) := by
  by_cases hf : filter = "Show completed" ∨ filter = "Show pending" ∨ filter = "Show all"
  · exact viewTasksLoop_known asctime h filter hf ps ts hd
  · rw [viewTasksLoop_unknown asctime h filter hf ps]
    have hnone : ts.filter (shown filter) = [] := by
      rw [List.filter_eq_nil_iff]
      intro t _
      simp [shown_unknown filter hf t]
    rw [hnone]; rfl

/-- A chain of builder calls on a live task returns; it changes only that task: the due date
becomes the last one set, the tags grow by the added ones in call order. -/
theorem chainCalls_spec (cs : List BuilderCall) :
    ∀ (h : Heap) (b : TaskBuilder) (t : Task), h.read b.task = some t →
      ∃ h2, chainCalls h b cs = some (h2, b) ∧
        h2.read b.task = some ⟨t.description, t.completed, lastDueDate t.dueDate cs,
          t.tags ++ addedTags cs, t.completionDate⟩ ∧
        ∀ q, q ≠ b.task → h2.read q = h.read q := by
  induction cs with
  | nil =>
    intro h b t ht
    exact ⟨h, rfl, by simpa [lastDueDate, addedTags] using ht, fun _ _ => rfl⟩
  | cons c cs ih =>
    intro h b t ht
    have hlt := h.lt_of_read b.task t ht
    cases c with
    | setDueDate d =>
      obtain ⟨h2, hc, hr, ho⟩ := ih (h.write b.task (t.setDueDate d)) b (t.setDueDate d)
        (h.read_write_same b.task _ hlt)
      refine ⟨h2, by simp [chainCalls, TaskBuilder.setDueDate, ht, hc], ?_, ?_⟩
      · simpa [lastDueDate, addedTags, Task.setDueDate] using hr
      · intro q hq
        rw [ho q hq, h.read_write_other b.task q _ hq]
    | addTag tag =>
      obtain ⟨h2, hc, hr, ho⟩ := ih (h.write b.task (t.addTag tag)) b (t.addTag tag)
        (h.read_write_same b.task _ hlt)
      refine ⟨h2, by simp [chainCalls, TaskBuilder.addTag, ht, hc], ?_, ?_⟩
      · simpa [lastDueDate, addedTags, Task.addTag] using hr
      · intro q hq
        rw [ho q hq, h.read_write_other b.task q _ hq]

/-! ## C13: "Show all" after `N` adds -/

/-- C13: for every non-empty sequence `ts` of tasks added to a fresh manager, the adds return
and `viewTasks` with "Show all" writes, after its heading, exactly one line per added task,
in the order of the adds: the `i`-th line is the line of the `i`-th task and starts with its
description. -/
theorem viewTasks_all_after_adds (asctime : Tm → String) (ts : List Task) (hne : ts ≠ []) :
    ∃ w, run World.init (ts.map Op.add) = some w ∧
      viewTasks asctime w.heap w.mgr "Show all"
        = some ("Task List:" :: ts.map (taskLine asctime)) ∧
      (ts.map (taskLine asctime)).length = ts.length ∧
      ∀ i (hi : i < ts.length), (ts.map (taskLine asctime))[i]?
        = some (ts[i].description ++ (" - " ++ taskLineTail asctime ts[i])) := by
  obtain ⟨w, hrun, _, hd⟩ := run_adds ts Inv.init
  have hd2 : deref w.heap w.mgr.tasks = ts.map some := by
    simpa [World.init, TaskManager.fresh, deref] using hd
  have htasks : w.mgr.tasks ≠ [] := by
    intro h0
    rw [h0] at hd2
    cases ts with
    | nil => exact hne rfl
    | cons t ts => simp [deref] at hd2
  have hall : ts.filter (shown "Show all") = ts := by
    rw [List.filter_eq_self]
    intro t _
    simp [shown]
  refine ⟨w, hrun, ?_, by simp, ?_⟩
  · have hloop := viewTasksLoop_eq asctime w.heap "Show all" w.mgr.tasks ts hd2
    rw [hall] at hloop
    simp [viewTasks, htasks, hloop]
  · intro i hi
    simp [hi, taskLine_eq_tail]

/-- C13 at `sampleTasks` (two adds, two lines). -/
theorem viewTasks_all_after_adds_witness :
    sampleTasks ≠ [] ∧
      ∃ w, run World.init (sampleTasks.map Op.add) = some w ∧
        viewTasks sampleAsctime w.heap w.mgr "Show all"
          = some ("Task List:" :: sampleTasks.map (taskLine sampleAsctime)) ∧
        (sampleTasks.map (taskLine sampleAsctime)).length = sampleTasks.length ∧
        ∀ i (hi : i < sampleTasks.length), (sampleTasks.map (taskLine sampleAsctime))[i]?
          = some (sampleTasks[i].description ++
              (" - " ++ taskLineTail sampleAsctime sampleTasks[i])) :=
  ⟨by decide, viewTasks_all_after_adds sampleAsctime sampleTasks (by decide)⟩

/-! ## C14: "EMPTY" and the filters -/

/-- C14: for every filter, `viewTasks` on an empty task list writes "EMPTY"; on a non-empty
list (of valid pointers) it returns without writing "EMPTY" and writes, after its heading,
the line of every task for which the filter test holds, in list order.  The test under
"Show completed" is `completed`, under "Show pending" its negation, under "Show all" always
true.  So "Show completed" on a non-empty all-pending list writes the heading only. -/
theorem viewTasks_lines (asctime : Tm → String) (h : Heap) (m : TaskManager)
    (filter : String) :
    (m.tasks = [] → viewTasks asctime h m filter = some ["Task List:", "EMPTY"]) ∧
    (m.tasks ≠ [] → ∀ ts : List Task, deref h m.tasks = ts.map some →
      ∃ body, viewTasks asctime h m filter = some ("Task List:" :: body) ∧
        body = (ts.filter (shown filter)).map (taskLine asctime) ∧
        "EMPTY" ∉ "Task List:" :: body) ∧
    (∀ t, shown "Show completed" t = t.completed) ∧
    (∀ t, shown "Show pending" t = !t.completed) ∧
    (∀ t, shown "Show all" t = true) ∧
    (m.tasks ≠ [] → ∀ ts : List Task, deref h m.tasks = ts.map some → (∀ t ∈ ts, t.completed = false) →
      viewTasks asctime h m "Show completed" = some ["Task List:"]) := by
  refine ⟨?_, ?_, ?_, ?_, ?_, ?_⟩
  · intro h0
    simp [viewTasks, h0]
  · intro hne ts hd
    have hloop := viewTasksLoop_eq asctime h filter m.tasks ts hd
    refine ⟨_, by simp [viewTasks, hne, hloop], rfl, ?_⟩
    intro hmem
    rcases List.mem_cons.mp hmem with h1 | h1
    · revert h1; decide
    · obtain ⟨t, _, ht⟩ := List.mem_map.mp h1
      exact taskLine_ne_EMPTY asctime t ht
  · intro t; simp [shown, Task.isCompleted]
  · intro t; simp [shown, Task.isCompleted]
  · intro t; simp [shown]
  · intro hne ts hd hpend
    have hloop := viewTasksLoop_eq asctime h "Show completed" m.tasks ts hd
    have hnone : ts.filter (shown "Show completed") = [] := by
      rw [List.filter_eq_nil_iff]
      intro t ht
      simp [shown, Task.isCompleted, hpend t ht]
    rw [hnone] at hloop
    simp [viewTasks, hne, hloop]

/-- C14 at a fresh manager (empty list) and at `sampleHeap`, `sampleMgr` (three pending
tasks) under "Show completed". -/
theorem viewTasks_lines_witness :
    viewTasks sampleAsctime Heap.empty TaskManager.fresh "Show completed"
        = some ["Task List:", "EMPTY"] ∧
      (∃ body, viewTasks sampleAsctime sampleHeap sampleMgr "Show pending"
          = some ("Task List:" :: body) ∧
        body = (sampleHeap.objs.filter (shown "Show pending")).map (taskLine sampleAsctime) ∧
        "EMPTY" ∉ "Task List:" :: body) ∧
      viewTasks sampleAsctime sampleHeap sampleMgr "Show completed" = some ["Task List:"] :=
  ⟨(viewTasks_lines sampleAsctime Heap.empty TaskManager.fresh "Show completed").1 rfl,
    (viewTasks_lines sampleAsctime sampleHeap sampleMgr "Show pending").2.1 (by decide)
      sampleHeap.objs (by decide),
    (viewTasks_lines sampleAsctime sampleHeap sampleMgr "Show completed").2.2.2.2.2
      (by decide) sampleHeap.objs (by decide) (by decide)⟩

/-! ## C16: the builder chain -/

/-- C16: for every description and every chain of `setDueDate` and `addTag` calls on
`TaskBuilder(description)`, `build()` returns a pointer to a task with that description,
`completed = false`, the due date of the last `setDueDate` call (empty if there is none) and
the `addTag` arguments as tags, in call order, duplicates and empty strings included; the
tasks created before are untouched. -/
theorem build_yields_configured_task (h : Heap) (description : String) (g : Tm)
    (cs : List BuilderCall) :
    (∃ h2 p, buildWith h description g cs = some (h2, p) ∧
      h2.read p = some ⟨description, false, lastDueDate "" cs, addedTags cs, g⟩ ∧
      ∀ q, q < h.objs.length → h2.read q = h.read q) ∧
    lastDueDate "" [] = "" ∧
    lastDueDate "" [BuilderCall.setDueDate "d1", BuilderCall.addTag "a",
      BuilderCall.setDueDate "d2"] = "d2" ∧
    addedTags [BuilderCall.addTag "a", BuilderCall.setDueDate "d1", BuilderCall.addTag "",
      BuilderCall.addTag "a"] = ["a", "", "a"] := by
  refine ⟨?_, rfl, rfl, rfl⟩
  have hnew := read_alloc_new h (Task.ctor description g)
  obtain ⟨h2, hc, hr, ho⟩ := chainCalls_spec cs (h.alloc (Task.ctor description g)).1
    ⟨(h.alloc (Task.ctor description g)).2⟩ (Task.ctor description g) hnew
  refine ⟨h2, h.objs.length, ?_, ?_, ?_⟩
  · simp only [buildWith, TaskBuilder.ctor, hc, TaskBuilder.build]
    rfl
  · simpa [Task.ctor, Heap.alloc] using hr
  · intro q hq
    have hq2 : q ≠ h.objs.length := Nat.ne_of_lt hq
    rw [ho q hq2]
    simp [Heap.alloc, Heap.read, List.getElem?_append_left, hq]

end ToDoList
